import Mathlib

/-!
Verification of the move/state/win-detection core of a Tic-Tac-Toe
application (sources under `src/`): the board projection
(`src/utilities/getBoard`, `src/utilities/getPlayer`), the win detector
(`src/utilities/getWins`), the game-over trigger
(`src/state/epics/checkForWin`) and the root reducer
(`src/state/reducers`).  The JavaScript functions are embedded as
executable Lean definitions; theorems below settle the stated claims.
-/

namespace TicTacToe

/-- A player's mark: `'x'` (first player) or `'o'` (second player). -/
inductive Mark where
  | x
  | o
deriving DecidableEq, Repr, Fintype

/-- Ramda's `indexOf`: the first index of `a` in `l`, or `-1` when `a`
does not occur (as used by `getPlayer` in `src/utilities/getPlayer/index.js`). -/
def indexOf (a : Nat) : List Nat → Int
  | [] => -1
  | b :: l =>
      if b = a then 0
      else if indexOf a l < 0 then -1 else indexOf a l + 1

/-- `getPlayer` from `src/utilities/getPlayer/index.js`: the mark of the
ply that played `square`, `none` (JS `undefined`) when `square` was never
played; even ply positions give `'x'`, odd give `'o'`. -/
def getPlayer (square : Nat) (moves : List Nat) : Option Mark :=
  let move := indexOf square moves
  if move < 0 then none
  else if move % 2 = 0 then some Mark.x else some Mark.o

/-- `getBoard` from `src/utilities/getBoard/index.js`:
`map(square => getPlayer(square, moves), times(identity, 9))`. -/
def getBoard (moves : List Nat) : List (Option Mark) :=
  (List.range 9).map (fun square => getPlayer square moves)

/-- The module-level constant `patterns` of `src/utilities/getWins/index.js`:
3 rows, 3 columns, 2 diagonals, in declaration order. -/
def patterns : List (List Nat) :=
  [[0, 1, 2], [3, 4, 5], [6, 7, 8], [0, 3, 6], [1, 4, 7], [2, 5, 8], [0, 4, 8], [2, 4, 6]]

/-- The filtering predicate of `getWins`: destructure the pattern as
`[s1, s2, s3]` and test
`Boolean(board[s1]) && board[s1] === board[s2] && board[s2] === board[s3]`.
Out-of-range JS indexing yields `undefined`, i.e. `none`, hence `getD`. -/
def winsPattern (board : List (Option Mark)) (pattern : List Nat) : Bool :=
  match pattern with
  | [s1, s2, s3] =>
      (board.getD s1 none).isSome &&
        board.getD s1 none == board.getD s2 none &&
        board.getD s2 none == board.getD s3 none
  | _ => false

/-- `getWins` from `src/utilities/getWins/index.js`: filter the fixed
pattern table by `winsPattern`. -/
def getWins (board : List (Option Mark)) : List (List Nat) :=
  patterns.filter (winsPattern board)

/-- Helper for Ramda's `uniq`: keep the first occurrence of each element,
tracking the elements already seen. -/
def uniqAux (seen : List Nat) : List Nat → List Nat
  | [] => []
  | a :: l => if a ∈ seen then uniqAux seen l else a :: uniqAux (a :: seen) l

/-- Ramda's `uniq`: drop duplicates, keeping first occurrences in order. -/
def uniq (l : List Nat) : List Nat := uniqAux [] l

/-- Ramda's `union`: the deduplicated concatenation, first list's order
first (`union(as, bs) = uniq(concat(as, bs))`). -/
def union (xs ys : List Nat) : List Nat := uniq (xs ++ ys)

/-- The outcome of one evaluation of the game-over trigger: either nothing
is emitted (`undetermined`, the epic returns an empty stream) or a
`GAME_OVER` action is emitted carrying the winning squares and the winning
player (`none` player and `[]` squares encode a draw). -/
inductive Conclusion where
  | undetermined
  | gameOver (squares : List Nat) (player : Option Mark)
deriving DecidableEq, Repr

/-- The per-move evaluation performed by `checkForWinEpic`
(`src/state/epics/checkForWin/index.js`) on the current move log:
fewer than 5 plays emits nothing; a non-empty win list emits
`gameOver(squares, player)` where `squares` is `head(wins)` for a single
win and `union(...wins)` for two, and `player` is `board[head(squares)]`;
a full board with no win emits `gameOver([])`; otherwise nothing. -/
def evaluate (moves : List Nat) : Conclusion :=
  let plays := moves.length
  if plays < 5 then .undetermined
  else
    let board := getBoard moves
    let wins := getWins board
    if wins.isEmpty then
      if plays > 8 then .gameOver [] none else .undetermined
    else
      let squares := if wins.length < 2 then wins.headD [] else union (wins.getD 0 []) (wins.getD 1 [])
      let player := board.getD (squares.headD 0) none
      .gameOver squares player

/-- Verification auxiliary: given three patterns `P`, `Q`, `R` and a mark
assigned to each, the set of cells belonging to the patterns whose
assigned mark is `mk`. -/
def markedCells (mk : Mark) (P Q R : List Nat) (mP mQ mR : Mark) : Finset Nat :=
  (if mP = mk then P.toFinset else ∅) ∪ (if mQ = mk then Q.toFinset else ∅) ∪
    (if mR = mk then R.toFinset else ∅)

/-- The Redux state shape of `src/state/reducers/index.js`:
`{ moves, winningSquares, winningPlayer }`; the latter two are absent
(`none`) until a `GAME_OVER` action arrives. -/
structure GameState where
  moves : List Nat
  winningSquares : Option (List Nat)
  winningPlayer : Option (Option Mark)
deriving DecidableEq, Repr

/-- `initialState` from `src/state/reducers/index.js`: `{ moves: [] }`. -/
def initialState : GameState := ⟨[], none, none⟩

/-- The actions the reducer discriminates on: `SQUARE_CLICKED` with payload
`{ square }` (possibly `undefined`), `GAME_OVER` with payload
`{ winners: { squares, player } }` (as built by the `gameOver` action
creator), and any other action type. -/
inductive Action where
  | squareClicked (square : Option Nat)
  | gameOver (squares : List Nat) (player : Option Mark)
  | other
deriving DecidableEq, Repr

/-- `rootReducer` from `src/state/reducers/index.js`: `GAME_OVER` stores
the winners; `SQUARE_CLICKED` appends `square` to `moves` unless `square`
is `undefined`; anything else returns the state unchanged. -/
def rootReducer (state : GameState) : Action → GameState
  | .gameOver squares player =>
      { state with winningSquares := some squares, winningPlayer := some player }
  | .squareClicked square =>
      { state with
        moves :=
          match square with
          | none => state.moves
          | some s => state.moves ++ [s] }
  | .other => state

/-! ### Properties of `indexOf` (Ramda semantics) -/

/-- `indexOf` is negative exactly when the element is absent. -/
theorem indexOf_neg_iff (a : Nat) (l : List Nat) : indexOf a l < 0 ↔ a ∉ l := by
  induction l with
  | nil => simp [indexOf]
  | cons b l ih =>
    by_cases hb : b = a
    · subst hb
      simp [indexOf]
    · rw [indexOf, if_neg hb]
      by_cases hr : indexOf a l < 0
      · rw [if_pos hr]
        simp only [List.mem_cons, not_or]
        constructor
        · intro _
          exact ⟨fun h => hb h.symm, ih.mp hr⟩
        · intro _
          omega
      · rw [if_neg hr]
        simp only [List.mem_cons, not_or]
        constructor
        · intro h
          exact absurd h (by omega)
        · rintro ⟨_, h2⟩
          exact absurd (ih.mpr h2) hr

/-- On a present element, `indexOf` agrees with the library's first-index
function. -/
theorem indexOf_of_mem {a : Nat} {l : List Nat} (h : a ∈ l) :
    indexOf a l = (List.indexOf a l : Int) := by
  induction l with
  | nil => cases h
  | cons b l ih =>
    by_cases hb : b = a
    · subst hb
      simp [indexOf, List.indexOf_cons_self]
    · have ha : a ∈ l := by
        rcases List.mem_cons.mp h with h1 | h1
        · exact absurd h1.symm hb
        · exact h1
      have hr : ¬ indexOf a l < 0 := by
        rw [indexOf_neg_iff]
        exact fun hn => hn ha
      rw [indexOf, if_neg hb, if_neg hr, ih ha, List.indexOf_cons_ne _ hb]
      push_cast
      omega

/-! ### Properties of `getPlayer` and `getBoard` -/

/-- `getPlayer` yields `undefined` exactly for unplayed squares. -/
theorem getPlayer_eq_none_iff (square : Nat) (moves : List Nat) :
    getPlayer square moves = none ↔ square ∉ moves := by
  rw [← indexOf_neg_iff square moves]
  simp only [getPlayer]
  by_cases h : indexOf square moves < 0
  · simp [h]
  · rw [if_neg h]
    constructor
    · intro hc
      split at hc <;> exact absurd hc (Option.some_ne_none _)
    · intro hc
      exact absurd hc h

/-- On a played square, `getPlayer` is determined by the parity of the
first index of that square in the move log. -/
theorem getPlayer_of_mem {square : Nat} {moves : List Nat} (h : square ∈ moves) :
    getPlayer square moves =
      if List.indexOf square moves % 2 = 0 then some Mark.x else some Mark.o := by
  have hr : ¬ indexOf square moves < 0 := by
    rw [indexOf_neg_iff]
    exact fun hn => hn h
  have hcast : ((List.indexOf square moves : Int) % 2 = 0) ↔
      (List.indexOf square moves % 2 = 0) := by omega
  simp only [getPlayer]
  rw [if_neg hr, indexOf_of_mem h]
  simp only [hcast]

/-- `getBoard` written out cell by cell. -/
theorem getBoard_eq (moves : List Nat) :
    getBoard moves =
      [getPlayer 0 moves, getPlayer 1 moves, getPlayer 2 moves, getPlayer 3 moves,
        getPlayer 4 moves, getPlayer 5 moves, getPlayer 6 moves, getPlayer 7 moves,
        getPlayer 8 moves] := rfl

/-- Reading the projected board at a cell index below 9 is `getPlayer`. -/
theorem getBoard_getD (moves : List Nat) {c : Nat} (hc : c < 9) :
    (getBoard moves).getD c none = getPlayer c moves := by
  rw [getBoard_eq]
  interval_cases c <;> rfl

/-! ### Properties of the win detector -/

/-- The filtering predicate of `getWins`, unfolded to a proposition:
a three-cell pattern qualifies iff its three cells hold one identical
non-empty mark. -/
theorem winsPattern_iff (board : List (Option Mark)) (a b c : Nat) :
    winsPattern board [a, b, c] = true ↔
      ∃ m : Mark, board.getD a none = some m ∧ board.getD b none = some m ∧
        board.getD c none = some m := by
  simp only [winsPattern, Bool.and_eq_true, beq_iff_eq, Option.isSome_iff_exists]
  constructor
  · rintro ⟨⟨⟨m, hm⟩, hab⟩, hbc⟩
    exact ⟨m, hm, hab ▸ hm, hbc ▸ hab ▸ hm⟩
  · rintro ⟨m, h1, h2, h3⟩
    exact ⟨⟨⟨m, h1⟩, h1.trans h2.symm⟩, h2.trans h3.symm⟩

/-- Every entry of the fixed pattern table is a triple of cell indices
below 9. -/
theorem patterns_shape : ∀ T ∈ patterns, T.length = 3 ∧ ∀ c ∈ T, c < 9 := by decide

/-- The fixed pattern table has no repeated pattern. -/
theorem patterns_nodup : patterns.Nodup := by decide

/-- A winning pattern of a projected board is monochromatic: all of its
cells were played by one and the same player. -/
theorem pattern_mark {moves : List Nat} {T : List Nat} (hT : T ∈ patterns)
    (hw : winsPattern (getBoard moves) T = true) :
    ∃ m : Mark, ∀ c ∈ T, c < 9 ∧ getPlayer c moves = some m := by
  obtain ⟨a, b, c, rfl⟩ := List.length_eq_three.mp (patterns_shape _ hT).1
  obtain ⟨m, h1, h2, h3⟩ := (winsPattern_iff _ a b c).mp hw
  refine ⟨m, ?_⟩
  intro d hd
  have hd9 : d < 9 := (patterns_shape _ hT).2 d hd
  refine ⟨hd9, ?_⟩
  rcases List.mem_cons.mp hd with rfl | hd'
  · exact (getBoard_getD moves hd9).symm.trans h1
  · rcases List.mem_cons.mp hd' with rfl | hd''
    · exact (getBoard_getD moves hd9).symm.trans h2
    · rcases List.mem_cons.mp hd'' with rfl | hd'''
      · exact (getBoard_getD moves hd9).symm.trans h3
      · cases hd'''

/-! ### Counting plays by parity -/

/-- A duplicate-free move log over cells 0–8 has at most 9 entries. -/
theorem length_le_nine (moves : List Nat) (hnd : moves.Nodup)
    (hrange : ∀ m ∈ moves, m < 9) : moves.length ≤ 9 := by
  have h1 : moves.toFinset.card = moves.length := List.toFinset_card_of_nodup hnd
  have h2 : moves.toFinset ⊆ Finset.range 9 := by
    intro m hm
    rw [List.mem_toFinset] at hm
    rw [Finset.mem_range]
    exact hrange m hm
  have h3 := Finset.card_le_card h2
  rw [h1, Finset.card_range] at h3
  exact h3

/-- The cells holding a given mark inject, via the ply index that played
them, into the ply positions of the matching parity. -/
theorem markCells_card_le (moves : List Nat) (hnd : moves.Nodup)
    (hrange : ∀ m ∈ moves, m < 9) (mk : Mark) (r : Nat)
    (hmk : ∀ p : Nat,
      ((if p % 2 = 0 then some Mark.x else some Mark.o) = some mk) ↔ p % 2 = r) :
    ((Finset.range 9).filter (fun c => getPlayer c moves = some mk)).card ≤
      ((Finset.range 9).filter (fun p => p % 2 = r)).card := by
  apply Finset.card_le_card_of_injOn (fun c => List.indexOf c moves)
  · intro c hc
    simp only [Finset.mem_filter, Finset.mem_range] at hc ⊢
    obtain ⟨_, hcp⟩ := hc
    have hmem : c ∈ moves := by
      by_contra hcm
      rw [(getPlayer_eq_none_iff c moves).mpr hcm] at hcp
      cases hcp
    have hidx : List.indexOf c moves < moves.length := List.indexOf_lt_length.mpr hmem
    refine ⟨lt_of_lt_of_le hidx (length_le_nine moves hnd hrange), ?_⟩
    rw [getPlayer_of_mem hmem] at hcp
    exact (hmk _).mp hcp
  · intro c1 h1 c2 h2 heq
    simp only [Finset.coe_filter, Set.mem_setOf_eq, Finset.mem_range] at h1 h2
    have hm1 : c1 ∈ moves := by
      by_contra hcm
      rw [(getPlayer_eq_none_iff c1 moves).mpr hcm] at h1
      cases h1.2
    have hm2 : c2 ∈ moves := by
      by_contra hcm
      rw [(getPlayer_eq_none_iff c2 moves).mpr hcm] at h2
      cases h2.2
    exact (List.indexOf_inj hm1 hm2).mp heq

/-- At most 5 cells of the projected board hold `'x'`: only the 5 even
ply positions 0, 2, 4, 6, 8 produce `'x'`. -/
theorem xCells_card_le (moves : List Nat) (hnd : moves.Nodup)
    (hrange : ∀ m ∈ moves, m < 9) :
    ((Finset.range 9).filter (fun c => getPlayer c moves = some Mark.x)).card ≤ 5 := by
  have h := markCells_card_le moves hnd hrange Mark.x 0 (by
    intro p
    by_cases hp : p % 2 = 0 <;> simp [hp])
  have h5 : ((Finset.range 9).filter (fun p => p % 2 = 0)).card = 5 := by decide
  omega

/-- At most 4 cells of the projected board hold `'o'`: only the 4 odd
ply positions 1, 3, 5, 7 produce `'o'`. -/
theorem oCells_card_le (moves : List Nat) (hnd : moves.Nodup)
    (hrange : ∀ m ∈ moves, m < 9) :
    ((Finset.range 9).filter (fun c => getPlayer c moves = some Mark.o)).card ≤ 4 := by
  have h := markCells_card_le moves hnd hrange Mark.o 1 (by
    intro p
    by_cases hp : p % 2 = 0
    · simp [hp]
    · simp [hp]
      omega)
  have h4 : ((Finset.range 9).filter (fun p => p % 2 = 1)).card = 4 := by decide
  omega

/-! ### At most two simultaneous wins -/

set_option maxHeartbeats 2000000 in
/-- The finite combinatorial core: three pairwise distinct patterns of the
fixed table can never be coloured consistently by two marks with at most
5 cells of one colour, at most 4 of the other, and no cell of both. -/
theorem triple_patterns_infeasible :
    ∀ P ∈ patterns, ∀ Q ∈ patterns, ∀ R ∈ patterns, P ≠ Q → P ≠ R → Q ≠ R →
      ∀ mP mQ mR : Mark,
        ¬ ((markedCells Mark.x P Q R mP mQ mR).card ≤ 5 ∧
            (markedCells Mark.o P Q R mP mQ mR).card ≤ 4 ∧
            markedCells Mark.x P Q R mP mQ mR ∩ markedCells Mark.o P Q R mP mQ mR = ∅) := by
  decide

/-- The cells of three monochromatic patterns carrying mark `mk` all lie
among the board cells holding `mk`. -/
theorem markedCells_subset {moves : List Nat} {P Q R : List Nat} {mP mQ mR : Mark} (mk : Mark)
    (hP : ∀ c ∈ P, c < 9 ∧ getPlayer c moves = some mP)
    (hQ : ∀ c ∈ Q, c < 9 ∧ getPlayer c moves = some mQ)
    (hR : ∀ c ∈ R, c < 9 ∧ getPlayer c moves = some mR) :
    markedCells mk P Q R mP mQ mR ⊆
      (Finset.range 9).filter (fun c => getPlayer c moves = some mk) := by
  have component : ∀ (T : List Nat) (mT : Mark),
      (∀ c ∈ T, c < 9 ∧ getPlayer c moves = some mT) →
      (if mT = mk then T.toFinset else ∅) ⊆
        (Finset.range 9).filter (fun c => getPlayer c moves = some mk) := by
    intro T mT hT
    by_cases hm : mT = mk
    · subst hm
      rw [if_pos rfl]
      intro c hc
      rw [List.mem_toFinset] at hc
      obtain ⟨h9, hp⟩ := hT c hc
      rw [Finset.mem_filter, Finset.mem_range]
      exact ⟨h9, hp⟩
    · rw [if_neg hm]
      exact Finset.empty_subset _
  simp only [markedCells]
  exact Finset.union_subset
    (Finset.union_subset (component P mP hP) (component Q mQ hQ)) (component R mR hR)

/-- No move log satisfying the uniqueness invariant can make three
pairwise distinct patterns win simultaneously. -/
theorem no_three_wins (moves : List Nat) (hnd : moves.Nodup)
    (hrange : ∀ m ∈ moves, m < 9) {P Q R : List Nat}
    (hPp : P ∈ patterns) (hQp : Q ∈ patterns) (hRp : R ∈ patterns)
    (hPQ : P ≠ Q) (hPR : P ≠ R) (hQR : Q ≠ R)
    (hPw : winsPattern (getBoard moves) P = true)
    (hQw : winsPattern (getBoard moves) Q = true)
    (hRw : winsPattern (getBoard moves) R = true) : False := by
  obtain ⟨mP, hmP⟩ := pattern_mark hPp hPw
  obtain ⟨mQ, hmQ⟩ := pattern_mark hQp hQw
  obtain ⟨mR, hmR⟩ := pattern_mark hRp hRw
  have hAX := markedCells_subset Mark.x hmP hmQ hmR
  have hBO := markedCells_subset Mark.o hmP hmQ hmR
  have hA : (markedCells Mark.x P Q R mP mQ mR).card ≤ 5 :=
    le_trans (Finset.card_le_card hAX) (xCells_card_le moves hnd hrange)
  have hB : (markedCells Mark.o P Q R mP mQ mR).card ≤ 4 :=
    le_trans (Finset.card_le_card hBO) (oCells_card_le moves hnd hrange)
  have hI : markedCells Mark.x P Q R mP mQ mR ∩ markedCells Mark.o P Q R mP mQ mR = ∅ := by
    rw [Finset.eq_empty_iff_forall_not_mem]
    intro c hc
    rw [Finset.mem_inter] at hc
    have hx := hAX hc.1
    have ho := hBO hc.2
    rw [Finset.mem_filter] at hx ho
    rw [hx.2] at ho
    simp at ho
  exact triple_patterns_infeasible P hPp Q hQp R hRp hPQ hPR hQR mP mQ mR ⟨hA, hB, hI⟩

/-! ### Unfolding the game-over trigger -/

/-- `evaluate` with its let-bindings written out. -/
theorem evaluate_eq (moves : List Nat) :
    evaluate moves =
      if moves.length < 5 then .undetermined
      else if (getWins (getBoard moves)).isEmpty then
        (if moves.length > 8 then .gameOver [] none else .undetermined)
      else
        .gameOver
          (if (getWins (getBoard moves)).length < 2 then
              (getWins (getBoard moves)).headD []
            else
              union ((getWins (getBoard moves)).getD 0 [])
                ((getWins (getBoard moves)).getD 1 []))
          ((getBoard moves).getD
            ((if (getWins (getBoard moves)).length < 2 then
                (getWins (getBoard moves)).headD []
              else
                union ((getWins (getBoard moves)).getD 0 [])
                  ((getWins (getBoard moves)).getD 1 [])).headD 0)
            none) := rfl

/-! ### Appending ignored entries -/

/-- Appending to a list an element already present does not move the first
index of any element. -/
theorem indexOf_append_of_mem {a : Nat} {l1 : List Nat} (l2 : List Nat) (h : a ∈ l1) :
    indexOf a (l1 ++ l2) = indexOf a l1 := by
  induction l1 with
  | nil => cases h
  | cons b l ih =>
    by_cases hb : b = a
    · simp [indexOf, hb]
    · have ha : a ∈ l := by
        rcases List.mem_cons.mp h with h1 | h1
        · exact absurd h1.symm hb
        · exact h1
      have hr : ¬ indexOf a l < 0 := by
        rw [indexOf_neg_iff]
        exact fun hn => hn ha
      have hr2 : ¬ indexOf a (l ++ l2) < 0 := by
        rw [indexOf_neg_iff]
        exact fun hn => hn (List.mem_append_left l2 ha)
      rw [List.cons_append, indexOf, if_neg hb, if_neg hr2, indexOf, if_neg hb, if_neg hr,
        ih ha]

/-- Appending a move that is a duplicate, or different from the square
being read, leaves `getPlayer` unchanged. -/
theorem getPlayer_append {square : Nat} {moves : List Nat} {m : Nat}
    (h : m ∈ moves ∨ square ≠ m) :
    getPlayer square (moves ++ [m]) = getPlayer square moves := by
  by_cases hs : square ∈ moves
  · simp only [getPlayer]
    rw [indexOf_append_of_mem _ hs]
  · have h2 : square ∉ moves ++ [m] := by
      rw [List.mem_append]
      rintro (h1 | h1)
      · exact hs h1
      · have heq : square = m := List.mem_singleton.mp h1
        rcases h with hm | hne
        · exact hs (heq ▸ hm)
        · exact hne heq
    rw [(getPlayer_eq_none_iff _ _).mpr h2, (getPlayer_eq_none_iff _ _).mpr hs]

/-- Appending a duplicate entry, or an out-of-range entry, leaves the
board projection unchanged. -/
theorem getBoard_append_irrelevant {moves : List Nat} {m : Nat}
    (h : m ∈ moves ∨ 9 ≤ m) :
    getBoard (moves ++ [m]) = getBoard moves := by
  have key : ∀ c, c < 9 → getPlayer c (moves ++ [m]) = getPlayer c moves := by
    intro c hc
    apply getPlayer_append
    rcases h with hm | hge
    · exact Or.inl hm
    · exact Or.inr (by omega)
  rw [getBoard_eq, getBoard_eq, key 0 (by omega), key 1 (by omega), key 2 (by omega),
    key 3 (by omega), key 4 (by omega), key 5 (by omega), key 6 (by omega), key 7 (by omega),
    key 8 (by omega)]

/-! ### Claim theorems -/

/-- C1: for every move log whose entries are cell indices 0–8, each
appearing at most once, the board projection is the 9-element sequence
whose cell `c` is empty when no ply played `c`, and otherwise holds `'x'`
when the ply position `p` that played `c` is even and `'o'` when `p` is
odd; the empty move log projects to the all-empty board. -/
theorem getBoard_projection (moves : List Nat) (hnd : moves.Nodup) :
    getBoard [] = List.replicate 9 none ∧
    (getBoard moves).length = 9 ∧
    ∀ c, c < 9 →
      ((c ∉ moves → (getBoard moves).getD c none = none) ∧
        ∀ p, ∀ hp : p < moves.length, moves.get ⟨p, hp⟩ = c →
          (getBoard moves).getD c none =
            (if p % 2 = 0 then some Mark.x else some Mark.o)) := by
  refine ⟨by decide, by rw [getBoard_eq]; rfl, ?_⟩
  intro c hc
  constructor
  · intro hcm
    rw [getBoard_getD moves hc]
    exact (getPlayer_eq_none_iff c moves).mpr hcm
  · intro p hp hpc
    have hmem : c ∈ moves := hpc ▸ List.get_mem moves p hp
    have hidxlt : List.indexOf c moves < moves.length := List.indexOf_lt_length.mpr hmem
    have hidx : List.indexOf c moves = p := by
      have hg : moves.get ⟨List.indexOf c moves, hidxlt⟩ = moves.get ⟨p, hp⟩ := by
        rw [List.indexOf_get, hpc]
      have := hnd.get_inj_iff.mp hg
      exact congrArg Fin.val this
    rw [getBoard_getD moves hc, getPlayer_of_mem hmem, hidx]

/-- Witness for C1 at the move log `[0, 4, 1, 3, 2]` of the repository's
own test: cell 3 was played at odd ply 3, hence holds `'o'`. -/
theorem getBoard_projection_witness :
    (getBoard [0, 4, 1, 3, 2]).getD 3 none =
      (if 3 % 2 = 0 then some Mark.x else some Mark.o) :=
  ((getBoard_projection [0, 4, 1, 3, 2] (by decide)).2.2 3 (by decide)).2 3 (by decide)
    (by decide)

/-- C7: for every move log satisfying the uniqueness invariant (cell
indices 0–8, each at most once, hence length at most 9), the win detector
returns at most two patterns. -/
theorem wins_at_most_two (moves : List Nat) (hnd : moves.Nodup)
    (hrange : ∀ m ∈ moves, m < 9) :
    (getWins (getBoard moves)).length ≤ 2 := by
  by_contra hgt
  push_neg at hgt
  have hWnd : (getWins (getBoard moves)).Nodup := patterns_nodup.filter _
  have h0 : 0 < (getWins (getBoard moves)).length := by omega
  have h1 : 1 < (getWins (getBoard moves)).length := by omega
  have hP := List.mem_filter.mp (List.get_mem (getWins (getBoard moves)) 0 h0)
  have hQ := List.mem_filter.mp (List.get_mem (getWins (getBoard moves)) 1 h1)
  have hR := List.mem_filter.mp (List.get_mem (getWins (getBoard moves)) 2 hgt)
  refine no_three_wins moves hnd hrange hP.1 hQ.1 hR.1 ?_ ?_ ?_ hP.2 hQ.2 hR.2
  · intro h
    simpa using hWnd.get_inj_iff.mp h
  · intro h
    simpa using hWnd.get_inj_iff.mp h
  · intro h
    simpa using hWnd.get_inj_iff.mp h

/-- Witness for C7 at the double-win log `[0, 1, 2, 5, 8, 7, 6, 3, 4]`:
exactly two patterns win, and `2 ≤ 2`. -/
theorem wins_at_most_two_witness :
    (getWins (getBoard [0, 1, 2, 5, 8, 7, 6, 3, 4])).length ≤ 2 :=
  wins_at_most_two [0, 1, 2, 5, 8, 7, 6, 3, 4] (by decide) (by decide)

/-- C2: for every 9-element board, `getWins` returns exactly the patterns
of the fixed table whose three cells are non-empty and identically marked,
and the returned patterns appear in the table's declaration order (the
result is a sublist of the table); it is empty when no pattern matches. -/
theorem getWins_characterization (board : List (Option Mark)) (_hb : board.length = 9) :
    List.Sublist (getWins board) patterns ∧
    ∀ a b c : Nat,
      ([a, b, c] ∈ getWins board ↔
        [a, b, c] ∈ patterns ∧
          ∃ m : Mark, board.getD a none = some m ∧ board.getD b none = some m ∧
            board.getD c none = some m) := by
  constructor
  · exact List.filter_sublist _
  · intro a b c
    constructor
    · intro h
      have h2 := List.mem_filter.mp h
      exact ⟨h2.1, (winsPattern_iff board a b c).mp h2.2⟩
    · rintro ⟨hmem, hm⟩
      exact List.mem_filter.mpr ⟨hmem, (winsPattern_iff board a b c).mpr hm⟩

/-- Witness for C2 at the board `[x,x,x,o,o,_,_,_,_]` of the repository's
`getBoard` test: the top row is a win. -/
theorem getWins_characterization_witness :
    [0, 1, 2] ∈ getWins [some Mark.x, some Mark.x, some Mark.x, some Mark.o, some Mark.o,
      none, none, none, none] :=
  ((getWins_characterization
    [some Mark.x, some Mark.x, some Mark.x, some Mark.o, some Mark.o,
      none, none, none, none] (by decide)).2 0 1 2).mpr
    ⟨by decide, Mark.x, by decide, by decide, by decide⟩

/-- C3: with fewer than 5 plays the trigger emits nothing. -/
theorem no_premature_conclusion (moves : List Nat) (h : moves.length < 5) :
    evaluate moves = .undetermined := by
  rw [evaluate_eq, if_pos h]

/-- Witness for C3 at the four-play log `[4, 6, 0, 7]` of the epic's own
test. -/
theorem no_premature_conclusion_witness : evaluate [4, 6, 0, 7] = .undetermined :=
  no_premature_conclusion [4, 6, 0, 7] (by decide)

/-- C4: every move log projecting to `[x,o,x,o,x,o,x,o,x]` makes the win
detector return exactly `[[0,4,8],[2,4,6]]`, and its evaluation emits a
win whose square list is `[0,4,8,2,6]` (as a set, `{0,2,4,6,8}`) for
player `'x'`. -/
theorem double_win (moves : List Nat)
    (h : getBoard moves =
      [some Mark.x, some Mark.o, some Mark.x, some Mark.o, some Mark.x,
        some Mark.o, some Mark.x, some Mark.o, some Mark.x]) :
    getWins (getBoard moves) = [[0, 4, 8], [2, 4, 6]] ∧
    evaluate moves = .gameOver [0, 4, 8, 2, 6] (some Mark.x) ∧
    ([0, 4, 8, 2, 6] : List Nat).toFinset = ({0, 2, 4, 6, 8} : Finset Nat) := by
  have hw : getWins (getBoard moves) = [[0, 4, 8], [2, 4, 6]] := by
    rw [h]
    decide
  have hsub : ∀ c, c < 9 → c ∈ moves := by
    intro c hc
    by_contra hm
    have h1 : (getBoard moves).getD c none = none := by
      rw [getBoard_getD moves hc]
      exact (getPlayer_eq_none_iff c moves).mpr hm
    rw [h] at h1
    interval_cases c <;> cases h1
  have hlen : 9 ≤ moves.length := by
    have hsub' : List.range 9 ⊆ moves := by
      intro c hc
      exact hsub c (List.mem_range.mp hc)
    have hsp := List.subperm_of_subset (List.nodup_range 9) hsub'
    simpa using hsp.length_le
  refine ⟨hw, ?_, by decide⟩
  rw [evaluate_eq, if_neg (by omega), hw, h]
  rfl

/-- Witness for C4 at the double-win log of the epic's own test. -/
theorem double_win_witness :
    getWins (getBoard [0, 1, 2, 5, 8, 7, 6, 3, 4]) = [[0, 4, 8], [2, 4, 6]] ∧
    evaluate [0, 1, 2, 5, 8, 7, 6, 3, 4] = .gameOver [0, 4, 8, 2, 6] (some Mark.x) :=
  ⟨(double_win [0, 1, 2, 5, 8, 7, 6, 3, 4] (by decide)).1,
    (double_win [0, 1, 2, 5, 8, 7, 6, 3, 4] (by decide)).2.1⟩

/-- C5: a 9-play log with no win evaluates to a draw conclusion carrying
the empty square list and no mark; a 5–8-play log with no win emits
nothing. -/
theorem draw_and_no_emit (moves : List Nat) :
    (moves.length = 9 → getWins (getBoard moves) = [] →
      evaluate moves = .gameOver [] none) ∧
    (5 ≤ moves.length → moves.length ≤ 8 → getWins (getBoard moves) = [] →
      evaluate moves = .undetermined) := by
  constructor
  · intro h9 hw
    rw [evaluate_eq, if_neg (by omega), hw]
    simp only [List.isEmpty_nil, if_true]
    rw [if_pos (by omega)]
  · intro h5 h8 hw
    rw [evaluate_eq, if_neg (by omega), hw]
    simp only [List.isEmpty_nil, if_true]
    rw [if_neg (by omega)]

/-- Witness for C5 at the tie log and the five-play no-win log of the
epic's own test. -/
theorem draw_and_no_emit_witness :
    evaluate [0, 1, 2, 4, 3, 5, 7, 6, 8] = .gameOver [] none ∧
    evaluate [4, 6, 0, 7, 1] = .undetermined :=
  ⟨(draw_and_no_emit [0, 1, 2, 4, 3, 5, 7, 6, 8]).1 (by decide) (by decide),
    (draw_and_no_emit [4, 6, 0, 7, 1]).2 (by decide) (by decide) (by decide)⟩

/-- C6 counterexample: malformed move logs are not rejected — a log with a
duplicated cell evaluates to a normal Undetermined, an oversized log with
a duplicate evaluates to a normal Drawn conclusion, and a log of
out-of-range entries evaluates to a normal Undetermined. -/
theorem malformed_not_rejected :
    evaluate [0, 0, 1, 2, 3] = .undetermined ∧
    evaluate [0, 1, 2, 4, 3, 5, 7, 6, 8, 0] = .gameOver [] none ∧
    evaluate [9, 10, 11, 12, 13] = .undetermined := by decide

/-- C6 amended: the core performs no validation and never fails fast:
evaluation is total, producing a normal Undetermined/Won/Drawn outcome on
every input, and an appended duplicate or out-of-range entry is simply
ignored by the board projection. -/
theorem evaluate_total_no_rejection :
    (∀ moves : List Nat, evaluate moves = .undetermined ∨
        ∃ squares player, evaluate moves = Conclusion.gameOver squares player) ∧
    (∀ (moves : List Nat) (m : Nat), m ∈ moves ∨ 9 ≤ m →
        getBoard (moves ++ [m]) = getBoard moves) := by
  constructor
  · intro moves
    cases h : evaluate moves with
    | undetermined => exact Or.inl rfl
    | gameOver s p => exact Or.inr ⟨s, p, rfl⟩
  · intro moves m h
    exact getBoard_append_irrelevant h

/-- Witness for the amended C6: appending the duplicate `4` or the
out-of-range `12` to `[0, 4, 1]` leaves the projected board unchanged. -/
theorem evaluate_total_no_rejection_witness :
    getBoard ([0, 4, 1] ++ [4]) = getBoard [0, 4, 1] ∧
    getBoard ([0, 4, 1] ++ [12]) = getBoard [0, 4, 1] :=
  ⟨evaluate_total_no_rejection.2 [0, 4, 1] 4 (Or.inl (by decide)),
    evaluate_total_no_rejection.2 [0, 4, 1] 12 (Or.inr (by decide))⟩

/-- C8: for every valid move log, the non-empty cells of the board
projection are pairwise distinct, and their number equals the length of
the move log. -/
theorem board_consistency (moves : List Nat) (hnd : moves.Nodup)
    (hrange : ∀ m ∈ moves, m < 9) :
    ((List.range 9).filter (fun c => ((getBoard moves).getD c none).isSome)).Nodup ∧
    ((List.range 9).filter (fun c => ((getBoard moves).getD c none).isSome)).length =
      moves.length := by
  have hfilnd :
      ((List.range 9).filter (fun c => ((getBoard moves).getD c none).isSome)).Nodup :=
    (List.nodup_range 9).filter _
  refine ⟨hfilnd, ?_⟩
  have hperm :
      List.Perm ((List.range 9).filter (fun c => ((getBoard moves).getD c none).isSome))
        moves := by
    rw [List.perm_ext_iff_of_nodup hfilnd hnd]
    intro a
    simp only [List.mem_filter, List.mem_range]
    constructor
    · rintro ⟨h9, hs⟩
      by_contra hm
      rw [getBoard_getD moves h9, (getPlayer_eq_none_iff a moves).mpr hm] at hs
      cases hs
    · intro hm
      refine ⟨hrange a hm, ?_⟩
      rw [getBoard_getD moves (hrange a hm)]
      rcases hgp : getPlayer a moves with _ | m
      · exact absurd ((getPlayer_eq_none_iff a moves).mp hgp) (fun hn => hn hm)
      · rfl
  exact hperm.length_eq

/-- Witness for C8 at the move log `[0, 4, 1, 3, 2]` of the repository's
own test: 5 non-empty cells for 5 plays. -/
theorem board_consistency_witness :
    ((List.range 9).filter
        (fun c => ((getBoard [0, 4, 1, 3, 2]).getD c none).isSome)).length =
      ([0, 4, 1, 3, 2] : List Nat).length :=
  (board_consistency [0, 4, 1, 3, 2] (by decide) (by decide)).2

/-- C9 counterexample: the spec's E2E table claims the projection of the
first five plies `[4, 0, 6, 3, 5]` is `[o,x,_,o,x,x,x,_,_]`, but cell 1 is
never played by that log, so the code leaves it empty. -/
theorem e2e_ply5_board_counterexample :
    (getBoard [4, 0, 6, 3, 5]).getD 1 none = none ∧
    getBoard [4, 0, 6, 3, 5] ≠
      [some Mark.o, some Mark.x, none, some Mark.o, some Mark.x, some Mark.x,
        some Mark.x, none, none] := by decide

/-- C9 amended: the projection of `[4, 0, 6, 3, 5]` is
`[o,_,_,o,x,x,x,_,_]` — cell 0 `'o'`, cell 3 `'o'`, cells 4, 5, 6 `'x'`,
all others (including cell 1) empty — no pattern of the fixed table wins
on it, and the ply-5 evaluation emits nothing. -/
theorem e2e_ply5_board :
    getBoard [4, 0, 6, 3, 5] =
      [some Mark.o, none, none, some Mark.o, some Mark.x, some Mark.x,
        some Mark.x, none, none] ∧
    getWins (getBoard [4, 0, 6, 3, 5]) = [] ∧
    evaluate [4, 0, 6, 3, 5] = .undetermined := by decide

/-- C10: a `SQUARE_CLICKED` action with an `undefined` square leaves the
`moves` list unchanged — nothing is appended — while a defined square
value extends `moves` by exactly that one element at the end. -/
theorem square_clicked_frame (state : GameState) :
    (rootReducer state (Action.squareClicked none)).moves = state.moves ∧
    ∀ s : Nat, (rootReducer state (Action.squareClicked (some s))).moves =
      state.moves ++ [s] :=
  ⟨rfl, fun _ => rfl⟩

end TicTacToe
